import Mathlib

/-!
Verification development for the BTMF (Bayesian Temporal Matrix Factorization)
implementation in experiments/Imputation-BTMF.ipynb.

Matrices are shallowly embedded as total functions ℕ → ℕ → ℚ (entries; shapes
are tracked by side conditions on the indices), 3-way tensors as ℕ → ℕ → ℕ → ℚ.
Exact rational arithmetic stands in for floating point.  External random draws
(Wishart, multivariate normal, numpy rand) are modelled as explicit inputs,
constrained only by the documented contract of the sampling routine.
-/

abbrev Mat : Type := ℕ → ℕ → ℚ
abbrev Ten : Type := ℕ → ℕ → ℕ → ℚ

/-- Transpose of a matrix (numpy .T). -/
def matTrans (A : Mat) : Mat := fun i j => A j i

/-- Matrix product with inner dimension n (np.matmul): entry (i,j) of A·B. -/
def matMulN (n : ℕ) (A B : Mat) : Mat :=
  fun i j => ∑ k ∈ Finset.range n, A i k * B k j

/-- Entrywise sum of two matrices. -/
def matAdd (A B : Mat) : Mat := fun i j => A i j + B i j

/-- Entrywise sum of two tensors. -/
def tenAdd (A B : Ten) : Ten := fun i j k => A i j k + B i j k

/-- Identity matrix entries (np.eye, restricted to in-bounds indices). -/
def eyeQ : Mat := fun i j => if i = j then 1 else 0

/-- Intermediate of kr_prod: einsum of ir, jr to ijr, i.e. E i j r = a i r * b j r. -/
def krEinsum (a b : Mat) : Ten := fun i j r => a i r * b j r

/-- C-order (row-major) reshape of an (m, n, r)-shaped tensor to (m*n, r):
row p of the result is row (p / n, p % n) of the tensor. -/
def reshapeC (n : ℕ) (E : Ten) : Mat := fun p c => E (p / n) (p % n) c

/-- Khatri-Rao style product from the source: einsum of ir, jr to ijr followed by a
C-order reshape to (m*n, r).  n is the row count of b. -/
def kr_prod (n : ℕ) (a b : Mat) : Mat := reshapeC n (krEinsum a b)

/-- C-order reshape of a (rank*rank, m) matrix into a (rank, rank, m) tensor:
entry (i, j, l) is entry (i*rank + j, l) of the matrix. -/
def reshape3C (rank : ℕ) (M : Mat) : Ten := fun i j l => M (i * rank + j) l

/-! ### np.max / np.min over the time_lags vector

time_lags is modelled as a function lags : ℕ → ℕ together with its length d;
np.max reduces with max, np.min with min starting from the first element. -/

/-- Maximum entry of the first d values of lags (np.max of the lag vector). -/
def npMax (d : ℕ) (lags : ℕ → ℕ) : ℕ := (Finset.range d).sup lags

/-- Minimum entry of the first d values of lags (np.min of the lag vector). -/
def npMin (d : ℕ) (lags : ℕ → ℕ) : ℕ :=
  (List.range d).foldl (fun m k => min m (lags k)) (lags 0)

/-! ### C1: forward-VAR lag inclusion in the temporal sampler

The source guards the forward-VAR accumulation over lag index k at time t by
  if t < dim2 - np.min(time_lags):
      if t >= np.max(time_lags) and t < dim2 - np.max(time_lags):
          index = list(range(0, d))
      else:
          index = np.where((t + time_lags >= np.max(time_lags)) & (t + time_lags < dim2))[0]
Both int subtractions are compared against the nonnegative t, so truncated
(Nat) subtraction is an exact model of the python comparisons. -/

/-- Whether the code adds the forward contribution of lag index k at time t:
the union of the outer gate, the interior all-lags branch, and the filtered
branch, transcribed from the source. -/
def includedCode (d dim2 : ℕ) (lags : ℕ → ℕ) (t k : ℕ) : Bool :=
  if t < dim2 - npMin d lags then
    if npMax d lags ≤ t ∧ t < dim2 - npMax d lags then
      true
    else
      decide (npMax d lags ≤ t + lags k ∧ t + lags k < dim2)
  else false

/-- The inclusion rule as the claim states it: lag k contributes at time t
iff max(lags) ≤ t + lags k < dim2. -/
def includedRule (d dim2 : ℕ) (lags : ℕ → ℕ) (t k : ℕ) : Bool :=
  decide (npMax d lags ≤ t + lags k ∧ t + lags k < dim2)

/-- Example lag vector (1, 3) used to instantiate hypothesis-bearing theorems. -/
def lagsEx : ℕ → ℕ := fun k => if k = 0 then 1 else 3

/-! ### ten2mat / mat2ten (C4)

ten2mat(tensor, mode) = np.reshape(np.moveaxis(tensor, mode, 0), (shape[mode], -1), order F).
mat2ten(mat, size, mode) = np.moveaxis(np.reshape(mat, size[index], order F), 0, mode)
with index = [mode] ++ the remaining axes in order.
A Fortran-order reshape is flattening with the first index fastest followed by
unflattening, so both are expressed through an F-order flatten of 3-way tensors. -/

/-- moveaxis(T, mode, 0) on a 3-way tensor: the chosen axis becomes axis 0,
the remaining axes keep their relative order. -/
def moveaxisTo0 (mode : ℕ) (T : Ten) : Ten :=
  match mode with
  | 0 => T
  | 1 => fun i j k => T j i k
  | _ => fun i j k => T j k i

/-- Shape of moveaxis(T, mode, 0) when T has shape (n0, n1, n2); also the value
of tensor_size[index] in mat2ten. -/
def shapeTo0 (mode n0 n1 n2 : ℕ) : ℕ × ℕ × ℕ :=
  match mode with
  | 0 => (n0, n1, n2)
  | 1 => (n1, n0, n2)
  | _ => (n2, n0, n1)

/-- Fortran-order flatten of a 3-way tensor with leading dimensions a and b:
the first index varies fastest. -/
def flattenF (a b : ℕ) (T : Ten) : ℕ → ℚ :=
  fun n => T (n % a) (n / a % b) (n / (a * b))

/-- Mode-m unfolding of an (n0, n1, n2) tensor, from the source:
flatten moveaxis(T, mode, 0) in F order and read it as an (sh.1 × rest) matrix
in F order, i.e. entry (r, s) is flat entry r + sh.1 * s. -/
def ten2mat (n0 n1 n2 : ℕ) (T : Ten) (mode : ℕ) : Mat :=
  fun r s =>
    let sh := shapeTo0 mode n0 n1 n2
    flattenF sh.1 sh.2.1 (moveaxisTo0 mode T) (r + sh.1 * s)

/-- Fortran-order reshape of a matrix of a rows into an (a, b, ·) tensor:
entry (i, j, k) is matrix entry at flat F-position i + a*(j + b*k). -/
def reshapeF3 (a b : ℕ) (M : Mat) : Ten :=
  fun i j k => M ((i + a * (j + b * k)) % a) ((i + a * (j + b * k)) / a)

/-- moveaxis(A, 0, mode): axis 0 is moved to position mode, the others shift
left keeping their order (inverse of moveaxisTo0). -/
def moveaxisFrom0 (mode : ℕ) (A : Ten) : Ten :=
  match mode with
  | 0 => A
  | 1 => fun i j k => A j i k
  | _ => fun i j k => A k i j

/-- Mode-m folding of a matrix back into an (n0, n1, n2) tensor, from the
source: F-order reshape to shape tensor_size[index], then moveaxis 0 → mode. -/
def mat2ten (n0 n1 n2 : ℕ) (M : Mat) (mode : ℕ) : Ten :=
  let sh := shapeTo0 mode n0 n1 n2
  moveaxisFrom0 mode (reshapeF3 sh.1 sh.2.1 M)

/-- Concrete 2×2×2 tensor used in witnesses. -/
def tenEx : Ten := fun i j k => (i : ℚ) + 2 * j + 4 * k

/-! ### mnrnd (C2)

The source draws X0 = np.random.rand(dim1, dim2), takes P = cholesky(U),
Q = cholesky(V) and returns M + P @ X0 @ Q.T.  The Cholesky factorization is
an external routine; it is modelled by its contract (lower-triangular factor
with positive diagonal whose product with its transpose is the input).  The
raw draw X0 is modelled by the contract of np.random.rand: every entry lies
in the half-open interval [0, 1). -/

/-- Contract of np.linalg.cholesky on an n×n matrix U: L is lower triangular
with positive diagonal and L·Lᵀ = U on the n×n block. -/
def cholFactor (n : ℕ) (U L : Mat) : Prop :=
  (∀ i j, i < j → L i j = 0) ∧ (∀ i, i < n → 0 < L i i) ∧
    (∀ i j, i < n → j < n → matMulN n L (matTrans L) i j = U i j)

/-- Contract of np.random.rand: every entry of the draw lies in [0, 1). -/
def npRandRange (Z : Mat) : Prop := ∀ i j, 0 ≤ Z i j ∧ Z i j < 1

/-- Deterministic core of mnrnd from the source, with the external draws made
explicit: M is p×q, P and Q are Cholesky factors of the row/column
covariances, Z is the raw random draw; the result is M + P·Z·Qᵀ. -/
def mnrnd (p q : ℕ) (M P Z Q : Mat) : Mat :=
  fun i j => M i j + matMulN q (matMulN p P Z) (matTrans Q) i j

/-- All-zero matrix. -/
def zeroMat : Mat := fun _ _ => 0

/-- All-one matrix; its 1×1 block is the identity covariance. -/
def oneMat : Mat := fun _ _ => 1

/-- The 1×1 lower-triangular Cholesky factor of the 1×1 identity. -/
def lowerOne : Mat := fun i j => if i < j then 0 else 1

/-- Constant-1/2 matrix: an admissible np.random.rand draw. -/
def halfMat : Mat := fun _ _ => (1 : ℚ) / 2

/-! ### C5: no symmetrization before inversion / Cholesky

The spec demands that every conditional precision/covariance matrix be
replaced by (M + Mᵀ)/2 before inv or cholesky.  The source contains no such
step: in the loading sampler it computes
  var3 = tau * matmul(kr_prod(X.T, X.T), binary_mat.T).reshape([rank, rank, dim1]) + dstack([Λ]*dim1)
and passes var3[:, :, i] directly to inv.  The matrix actually passed is
embedded below; the hyperparameter precision draw Λ (wishart rvs) is an
explicit input. -/

/-- The matrix the loading-row sampler passes to inv for row l: slab l of
tau * (kr_prod(Xᵀ, Xᵀ) @ binaryᵀ) reshaped to (rank, rank, dim1), plus the
dstack-broadcast hyperparameter precision Λ, transcribed from the source. -/
def loadingInvArg (dim2 rank : ℕ) (tau : ℚ) (X binary Lam : Mat) (l : ℕ) : Mat :=
  fun i j =>
    tau * reshape3C rank
        (matMulN dim2 (kr_prod rank (matTrans X) (matTrans X)) (matTrans binary)) i j l
      + Lam i j

/-- Symmetrization (M + Mᵀ)/2 demanded by the spec. -/
def symPart (M : Mat) : Mat := fun i j => (M i j + M j i) / 2

/-- Asymmetric 2×2 test matrix standing for an asymmetric precision draw. -/
def asymLam : Mat := fun i j => if i = 0 ∧ j = 1 then 1 else 0

/-- Symmetric 2×2 test matrix. -/
def symLam : Mat := fun i j => if (i = 0 ∧ j = 1) ∨ (i = 1 ∧ j = 0) then 1 else 0

/-! ### C6: temporal latent sampler, per-time-step conditional

For each t the source builds
  Qt = 0                                         if t < max(lags)
  Qt = Lambda_x @ ten2mat(A, 0) @ X[t - lags].reshape(rank*d)   otherwise
and inverts
  var3[:, :, t] + Mt - Lambda_x + eye(rank)      if t < max(lags)
  var3[:, :, t] + Mt                             otherwise
with var3 = tau * matmul(kr_prod(W.T, W.T), binary_mat).reshape([rank, rank, dim2])
          + dstack([Lambda_x] * dim2). -/

/-- Data term of the temporal conditional precision at time t (the tau-scaled
reshaped Khatri-Rao part of var3, without the broadcast Lambda_x). -/
def temporalDataTerm (dim1 rank : ℕ) (tau : ℚ) (W binary : Mat) (t : ℕ) : Mat :=
  fun i j =>
    tau * reshape3C rank (matMulN dim1 (kr_prod rank (matTrans W) (matTrans W)) binary) i j t

/-- Slab (i, j, t) of the var3 tensor of the temporal sampler. -/
def temporalVar3 (dim1 rank : ℕ) (tau : ℚ) (W binary Lx : Mat) (t : ℕ) : Mat :=
  fun i j => temporalDataTerm dim1 rank tau W binary t i j + Lx i j

/-- Coefficient slab A[:, :, k]. -/
def tenSlab (A : Ten) (k : ℕ) : Mat := fun i j => A i j k

/-- Forward-VAR precision contribution Mt: the sum of Akᵀ·Lambda_x·Ak over the
lag indices the code includes at time t. -/
def MtOf (d dim2 rank : ℕ) (lags : ℕ → ℕ) (Lx : Mat) (A : Ten) (t : ℕ) : Mat :=
  fun i j =>
    ∑ k ∈ (Finset.range d).filter (fun k => includedCode d dim2 lags t k = true),
      matMulN rank (matMulN rank (matTrans (tenSlab A k)) Lx) (tenSlab A k) i j

/-- C-order flattening of the lagged rows X[t - lags, :] into a rank*d vector. -/
def lagVec (rank d : ℕ) (lags : ℕ → ℕ) (X : Mat) (t : ℕ) : ℕ → ℚ :=
  fun s => X (t - lags (s / rank)) (s % rank)

/-- Backward-VAR mean contribution Qt from the source: zero before max(lags),
otherwise Lambda_x times the unfolded coefficient tensor times the lag vector. -/
def QtOf (d dim2 rank : ℕ) (lags : ℕ → ℕ) (Lx : Mat) (A : Ten) (X : Mat) (t : ℕ) :
    ℕ → ℚ :=
  if t < npMax d lags then fun _ => 0
  else fun i =>
    ∑ j ∈ Finset.range rank, Lx i j *
      ∑ s ∈ Finset.range (rank * d), ten2mat rank rank d A 0 j s * lagVec rank d lags X t s

/-- The matrix the temporal sampler passes to inv at time t, transcribed from
the source (the two branches of the edge policy). -/
def temporalInvArg (dim1 d dim2 rank : ℕ) (lags : ℕ → ℕ) (tau : ℚ)
    (W binary Lx : Mat) (A : Ten) (t : ℕ) : Mat :=
  if t < npMax d lags then
    fun i j =>
      temporalVar3 dim1 rank tau W binary Lx t i j + MtOf d dim2 rank lags Lx A t i j
        - Lx i j + eyeQ i j
  else
    fun i j =>
      temporalVar3 dim1 rank tau W binary Lx t i j + MtOf d dim2 rank lags Lx A t i j

/-- Constant lag vector used in witnesses: a single lag of 1. -/
def lagsOne : ℕ → ℕ := fun _ => 1

/-! ### C8: one-step-ahead extension X_new and the extended reconstruction

During collection the source builds
  X_new = np.zeros((dim2 + 1, rank)); X_new[0:dim2] = X.copy()
  X_new[dim2] = np.matmul(ten2mat(A, 0), X_new[dim2 - time_lags].reshape([rank * d]))
and accumulates X_new and np.matmul(W, X_new.T). -/

/-- State of X_new after its first dim2 rows are filled with X and before the
forecast row is written (row dim2 still holds the zeros it was created with). -/
def xNewBase (dim2 : ℕ) (X : Mat) : Mat :=
  fun t r => if t < dim2 then X t r else 0

/-- Forecast row written into X_new[dim2]: the mode-0 unfolded coefficient
tensor applied to the C-order flattening of X_new[dim2 - time_lags, :]. -/
def xNewForecast (dim2 rank d : ℕ) (lags : ℕ → ℕ) (A : Ten) (X : Mat) : ℕ → ℚ :=
  fun r =>
    ∑ s ∈ Finset.range (rank * d),
      ten2mat rank rank d A 0 r s * xNewBase dim2 X (dim2 - lags (s / rank)) (s % rank)

/-- The finished X_new matrix: X on rows 0..dim2-1, the forecast row at dim2,
zeros beyond (it was allocated with dim2 + 1 rows). -/
def xNewOf (dim2 rank d : ℕ) (lags : ℕ → ℕ) (A : Ten) (X : Mat) : Mat :=
  fun t r =>
    if t < dim2 then X t r
    else if t = dim2 then xNewForecast dim2 rank d lags A X r
    else 0

/-! ### C7: observation-noise precision update

At the end of every iteration the source draws
  tau ~ np.random.gamma(alpha + 0.5 * sparse_mat[position].shape[0],
                        1 / (beta + 0.5 * np.sum((sparse_mat - mat_hat)[position] ** 2)))
with alpha = beta = 1e-6, position = np.where(sparse_mat != 0) computed once
at entry, and mat_hat = np.matmul(W, X.T) recomputed in the same iteration. -/

/-- Hyperparameter alpha of the source, 1e-6. -/
def alphaBTMF : ℚ := 1 / 1000000

/-- Hyperparameter beta of the source, 1e-6. -/
def betaBTMF : ℚ := 1 / 1000000

/-- Observed positions: the indices at which sparse_mat is nonzero. -/
def obsPositions (dim1 dim2 : ℕ) (sparse : Mat) : Finset (ℕ × ℕ) :=
  (Finset.range dim1 ×ˢ Finset.range dim2).filter (fun p => sparse p.1 p.2 ≠ 0)

/-- First argument of the Gamma draw (its shape parameter), from the source. -/
def tauShapeArg (dim1 dim2 : ℕ) (sparse : Mat) : ℚ :=
  alphaBTMF + (1 / 2 : ℚ) * (obsPositions dim1 dim2 sparse).card

/-- Posterior rate: beta plus half the sum of squared residuals of the
reconstruction W·Xᵀ over the observed positions. -/
def tauRate (dim1 dim2 rank : ℕ) (sparse W X : Mat) : ℚ :=
  betaBTMF + (1 / 2 : ℚ) *
    ∑ p ∈ obsPositions dim1 dim2 sparse,
      (sparse p.1 p.2 - matMulN rank W (matTrans X) p.1 p.2) ^ 2

/-- Second argument of the Gamma draw (its scale parameter), from the source:
the reciprocal of beta plus half the summed squared residuals. -/
def tauScaleArg (dim1 dim2 rank : ℕ) (sparse W X : Mat) : ℚ :=
  1 / (betaBTMF + (1 / 2 : ℚ) *
    ∑ p ∈ obsPositions dim1 dim2 sparse,
      (sparse p.1 p.2 - matMulN rank W (matTrans X) p.1 p.2) ^ 2)

/-! ### C3: burn-in / collection accumulators

The source zero-initializes W_plus, A_plus, X_new_plus and mat_hat_plus
before the loop, and inside iteration iters of range(maxiter1) adds the
current draw to each of them exactly when iters + 1 > maxiter1 - maxiter2;
at loop exit every accumulator is divided by maxiter2.  The per-iteration
Gibbs draws W, A, X are external samples and enter as explicit functions of
the iteration index. -/

/-- Collection gate of the source: iters + 1 > maxiter1 - maxiter2
(python int subtraction compared against the nonnegative iters + 1, so Nat
truncated subtraction is exact). -/
def collectGate (maxiter1 maxiter2 iters : ℕ) : Bool :=
  decide (iters + 1 > maxiter1 - maxiter2)

/-- The four running accumulators of BTMF. -/
structure BTMFSums where
  wPlus : Mat
  aPlus : Ten
  xNewPlus : Mat
  matHatPlus : Mat

/-- Zero-initialized accumulators. -/
def btmfSumsInit : BTMFSums :=
  { wPlus := zeroMat, aPlus := fun _ _ _ => 0, xNewPlus := zeroMat, matHatPlus := zeroMat }

/-- One iteration of the accumulation: when the collection gate holds, add the
iteration's W and A draws, the extended X_new built from them, and the
extended reconstruction W·X_newᵀ; otherwise leave every accumulator alone. -/
def btmfAccStep (maxiter1 maxiter2 dim2 rank d : ℕ) (lags : ℕ → ℕ)
    (Wd : ℕ → Mat) (Ad : ℕ → Ten) (Xd : ℕ → Mat) (s : BTMFSums) (iters : ℕ) :
    BTMFSums :=
  if collectGate maxiter1 maxiter2 iters then
    { wPlus := matAdd s.wPlus (Wd iters)
      aPlus := tenAdd s.aPlus (Ad iters)
      xNewPlus := matAdd s.xNewPlus (xNewOf dim2 rank d lags (Ad iters) (Xd iters))
      matHatPlus := matAdd s.matHatPlus
        (matMulN rank (Wd iters) (matTrans (xNewOf dim2 rank d lags (Ad iters) (Xd iters)))) }
  else s

/-- The accumulators after the maxiter1 iterations of the main loop. -/
def btmfSums (maxiter1 maxiter2 dim2 rank d : ℕ) (lags : ℕ → ℕ)
    (Wd : ℕ → Mat) (Ad : ℕ → Ten) (Xd : ℕ → Mat) : BTMFSums :=
  (List.range maxiter1).foldl
    (btmfAccStep maxiter1 maxiter2 dim2 rank d lags Wd Ad Xd) btmfSumsInit

/-- The four returned outputs: every accumulator divided by maxiter2. -/
def btmfOut (maxiter1 maxiter2 dim2 rank d : ℕ) (lags : ℕ → ℕ)
    (Wd : ℕ → Mat) (Ad : ℕ → Ten) (Xd : ℕ → Mat) : BTMFSums :=
  let s := btmfSums maxiter1 maxiter2 dim2 rank d lags Wd Ad Xd
  { wPlus := fun i j => s.wPlus i j / maxiter2
    aPlus := fun i j k => s.aPlus i j k / maxiter2
    xNewPlus := fun t r => s.xNewPlus t r / maxiter2
    matHatPlus := fun i t => s.matHatPlus i t / maxiter2 }

/-! ### C9: no shape validation at entry

Before its main loop, BTMF only binds W and X, reads shapes, builds the
position sets and binary mask, and zero-initializes constants and
accumulators.  The single entry operation that would raise on a shape
mismatch is the elementwise comparison (dense_mat != 0) & (sparse_mat == 0),
which requires dense and sparse to have the same shape; every other entry
operation is total.  The first shape-sensitive sampling operation is the
matmul(var2, binary_mat.T) / reshape pair of the loading sampler inside
iteration 0.  Both are embedded as Except values whose error cases are
exactly the numpy failure points, in program order. -/

/-- Tests whether an Except value succeeded. -/
def exceptOk {A : Type} (e : Except String A) : Bool :=
  match e with
  | Except.ok _ => true
  | Except.error _ => false

/-- Binary observation mask built at entry: 1 at in-bounds nonzero entries of
the sparse matrix, 0 elsewhere. -/
def binaryOf (dim1 dim2 : ℕ) (sparse : Mat) : Mat :=
  fun i t => if i < dim1 ∧ t < dim2 ∧ sparse i t ≠ 0 then 1 else 0

/-- Pre-loop section of BTMF: the only operation that can fail is the
broadcast of dense against sparse, which needs equal shapes; the mask, the
constants and the zeroed accumulators are then built unconditionally.  No
check against the shapes of init W, init X, rank or the lags exists here. -/
def btmfPrelude (denseR denseC dim1 dim2 : ℕ) (sparse : Mat) :
    Except String (Mat × ℕ × ℕ) :=
  if denseR = dim1 ∧ denseC = dim2 then
    Except.ok (binaryOf dim1 dim2 sparse, dim1, dim2)
  else Except.error "operands could not be broadcast together"

/-- Shape conditions of the first sampling step (loading sampler, iteration
0): matmul(kr_prod(X.T, X.T), binary_mat.T) needs the row count of X to equal
dim2, and the subsequent reshape to (rank, rank, dim1) needs the element
counts to agree; checked in program order. -/
def loadingStepShapes (dim1 dim2 rank xRows xCols : ℕ) : Except String Unit :=
  if xRows = dim2 then
    if xCols * xCols * dim1 = rank * rank * dim1 then Except.ok ()
    else Except.error "cannot reshape array"
  else Except.error "matmul mismatch in core dimension"

/-! ### C10: in-place mutation of the caller's init arrays

numpy arrays are mutable objects: W = init[W-key] and X = init[X-key] bind
references without copying, W[i, :] = ... and X[t, :] = ... write through
those references row by row each iteration, and the returned outputs are
fresh arrays produced by the terminal divisions.  This is modelled with an
explicit store mapping array identifiers to matrix values: binding keeps the
identifier, element assignment updates the store at that identifier, and the
terminal division allocates a fresh identifier. -/

/-- A store of numpy arrays: the next fresh identifier and the value held at
each identifier. -/
structure PyHeap where
  next : ℕ
  val : ℕ → Mat

/-- In-place update of the array at identifier r (element assignment). -/
def heapWrite (h : PyHeap) (r : ℕ) (v : Mat) : PyHeap :=
  { h with val := fun a => if a = r then v else h.val a }

/-- Allocation of a fresh array holding v (any array-producing expression,
such as the terminal division of an accumulator). -/
def heapAlloc (h : PyHeap) (v : Mat) : PyHeap × ℕ :=
  ({ next := h.next + 1, val := fun a => if a = h.next then v else h.val a },
    h.next)

/-- Assignment of row i of a matrix (the slice write M[i, :] = v). -/
def writeRow (M : Mat) (i : ℕ) (v : ℕ → ℚ) : Mat :=
  fun r c => if r = i then v c else M r c

/-- A Gibbs sweep over an n-row factor matrix: rows 0..n-1 are overwritten in
order with the sweep's per-row draws. -/
def gibbsRows (n : ℕ) (draw : ℕ → ℕ → ℚ) (M : Mat) : Mat :=
  (List.range n).foldl (fun acc i => writeRow acc i (draw i)) M

/-- One BTMF iteration as seen by the store: the W sweep writes through the
reference bound to init W, then the X sweep writes through the reference
bound to init X. -/
def btmfHeapIter (dim1 dim2 : ℕ) (Wdraw Xdraw : ℕ → ℕ → ℕ → ℚ)
    (wRef xRef : ℕ) (h : PyHeap) (iters : ℕ) : PyHeap :=
  let h1 := heapWrite h wRef (gibbsRows dim1 (Wdraw iters) (h.val wRef))
  heapWrite h1 xRef (gibbsRows dim2 (Xdraw iters) (h1.val xRef))

/-- The store-level trace of a BTMF call: maxiter1 iterations of in-place
sweeps through the caller's two array references, then two fresh allocations
for the averaged W output and the averaged reconstruction output (the values
avgW, avgMatHat are the accumulator quotients).  Returns the final store and
the identifiers of the two fresh outputs. -/
def btmfHeapRun (maxiter1 dim1 dim2 : ℕ) (Wdraw Xdraw : ℕ → ℕ → ℕ → ℚ)
    (avgW avgMatHat : Mat) (wRef xRef : ℕ) (h : PyHeap) : PyHeap × ℕ × ℕ :=
  let hEnd := (List.range maxiter1).foldl
    (btmfHeapIter dim1 dim2 Wdraw Xdraw wRef xRef) h
  let p1 := heapAlloc hEnd avgW
  let p2 := heapAlloc p1.1 avgMatHat
  (p2.1, p1.2, p2.2)

lemma le_npMax {d k : ℕ} (lags : ℕ → ℕ) (hk : k < d) : lags k ≤ npMax d lags :=
  Finset.le_sup (Finset.mem_range.mpr hk)

lemma foldl_min_le (l : List ℕ) (a : ℕ) (f : ℕ → ℕ) :
    l.foldl (fun m k => min m (f k)) a ≤ a := by
  induction l generalizing a with
  | nil => simp
  | cons x xs ih =>
    rw [List.foldl_cons]
    exact le_trans (ih (min a (f x))) (min_le_left _ _)

lemma foldl_min_le_elem (l : List ℕ) (a : ℕ) (f : ℕ → ℕ) (k : ℕ) (hk : k ∈ l) :
    l.foldl (fun m k => min m (f k)) a ≤ f k := by
  induction l generalizing a with
  | nil => cases hk
  | cons x xs ih =>
    rw [List.foldl_cons]
    rcases List.mem_cons.mp hk with h | h
    · subst h
      exact le_trans (foldl_min_le xs _ f) (min_le_right _ _)
    · exact ih (min a (f x)) h

lemma npMin_le {d k : ℕ} (lags : ℕ → ℕ) (hk : k < d) : npMin d lags ≤ lags k :=
  foldl_min_le_elem _ _ _ k (List.mem_range.mpr hk)

/-- C1: for every time step t and every lag index k < d, the union of the
code's branches adds lag k's forward-VAR contribution if and only if
max(time_lags) ≤ t + time_lags[k] < dim2. -/
theorem btmf_forward_lag_inclusion (d dim2 t k : ℕ) (lags : ℕ → ℕ) (hk : k < d) :
    includedCode d dim2 lags t k = includedRule d dim2 lags t k := by
  have h1 := le_npMax (d := d) lags hk
  have h2 := npMin_le (d := d) lags hk
  unfold includedCode includedRule
  split
  · split
    · rw [eq_comm, decide_eq_true_eq]
      omega
    · rfl
  · rw [eq_comm, decide_eq_false_iff_not]
    intro h
    omega

/-- Witness for C1 at d = 2, dim2 = 5, t = 3, k = 0. -/
theorem btmf_forward_lag_inclusion_witness :
    (0 : ℕ) < 2 ∧ includedCode 2 5 lagsEx 3 0 = includedRule 2 5 lagsEx 3 0 :=
  ⟨by decide, btmf_forward_lag_inclusion 2 5 3 0 lagsEx (by decide)⟩

lemma add_mul_mod_lt {i a : ℕ} (m : ℕ) (h : i < a) : (i + a * m) % a = i := by
  rw [Nat.add_mul_mod_self_left, Nat.mod_eq_of_lt h]

lemma add_mul_div_lt {i a : ℕ} (m : ℕ) (h : i < a) : (i + a * m) / a = m := by
  rw [Nat.add_mul_div_left _ _ (by omega), Nat.div_eq_of_lt h, Nat.zero_add]

/-- C4: mode-n folding is the exact inverse of mode-n unfolding for every
3-way tensor, every valid mode and every in-bounds index. -/
theorem mat2ten_ten2mat (n0 n1 n2 : ℕ) (T : Ten) (mode i j k : ℕ)
    (hm : mode < 3) (hi : i < n0) (hj : j < n1) (hk : k < n2) :
    mat2ten n0 n1 n2 (ten2mat n0 n1 n2 T mode) mode i j k = T i j k := by
  interval_cases mode
  · show reshapeF3 n0 n1 (ten2mat n0 n1 n2 T 0) i j k = T i j k
    unfold reshapeF3 ten2mat shapeTo0 moveaxisTo0 flattenF
    simp only
    rw [add_mul_mod_lt _ hi, add_mul_div_lt _ hi,
        add_mul_mod_lt _ hi, add_mul_div_lt _ hi,
        add_mul_mod_lt _ hj, ← Nat.div_div_eq_div_mul,
        add_mul_div_lt _ hi, add_mul_div_lt _ hj]
  · show reshapeF3 n1 n0 (ten2mat n0 n1 n2 T 1) j i k = T i j k
    unfold reshapeF3 ten2mat shapeTo0 moveaxisTo0 flattenF
    simp only
    rw [add_mul_mod_lt _ hj, add_mul_div_lt _ hj,
        add_mul_mod_lt _ hj, add_mul_div_lt _ hj,
        add_mul_mod_lt _ hi, ← Nat.div_div_eq_div_mul,
        add_mul_div_lt _ hj, add_mul_div_lt _ hi]
  · show reshapeF3 n2 n0 (ten2mat n0 n1 n2 T 2) k i j = T i j k
    unfold reshapeF3 ten2mat shapeTo0 moveaxisTo0 flattenF
    simp only
    rw [add_mul_mod_lt _ hk, add_mul_div_lt _ hk,
        add_mul_mod_lt _ hk, add_mul_div_lt _ hk,
        add_mul_mod_lt _ hi, ← Nat.div_div_eq_div_mul,
        add_mul_div_lt _ hk, add_mul_div_lt _ hi]

/-- Witness for C4 at mode 1, index (0, 1, 1) of a 2×2×2 tensor. -/
theorem mat2ten_ten2mat_witness :
    (1 : ℕ) < 3 ∧ (0 : ℕ) < 2 ∧ (1 : ℕ) < 2 ∧
      mat2ten 2 2 2 (ten2mat 2 2 2 tenEx 1) 1 0 1 1 = tenEx 0 1 1 :=
  ⟨by decide, by decide, by decide,
    mat2ten_ten2mat 2 2 2 tenEx 1 0 1 1 (by decide) (by decide) (by decide) (by decide)⟩

/-- C2 bug evidence: with mean 0 and identity 1×1 row and column covariances,
every sample mnrnd can return lies in [0, 1), because the source feeds the
Cholesky product with np.random.rand (uniform on [0, 1)) instead of a
standard-normal draw.  A matrix-normal sample M + L_U Z L_Vᵀ with Z standard
normal would take any real value (for instance every negative value), so the
code cannot be producing one. -/
theorem mnrnd_rand_draw_bounded (L Lq Z : Mat)
    (hL : cholFactor 1 oneMat L) (hQ : cholFactor 1 oneMat Lq)
    (hZ : npRandRange Z) :
    0 ≤ mnrnd 1 1 zeroMat L Z Lq 0 0 ∧ mnrnd 1 1 zeroMat L Z Lq 0 0 < 1 := by
  obtain ⟨-, hLpos, hLprod⟩ := hL
  obtain ⟨-, hQpos, hQprod⟩ := hQ
  have hL1 : L 0 0 * L 0 0 = 1 := by
    have := hLprod 0 0 (by omega) (by omega)
    simpa [matMulN, matTrans, oneMat] using this
  have hQ1 : Lq 0 0 * Lq 0 0 = 1 := by
    have := hQprod 0 0 (by omega) (by omega)
    simpa [matMulN, matTrans, oneMat] using this
  have hLe : L 0 0 = 1 := by nlinarith [hLpos 0 (by omega)]
  have hQe : Lq 0 0 = 1 := by nlinarith [hQpos 0 (by omega)]
  have hval : mnrnd 1 1 zeroMat L Z Lq 0 0 = Z 0 0 := by
    simp [mnrnd, matMulN, matTrans, zeroMat, hLe, hQe]
  rw [hval]
  exact hZ 0 0

/-- Witness for C2 at L = Lq = lowerOne and the constant draw 1/2. -/
theorem mnrnd_rand_draw_bounded_witness :
    0 ≤ mnrnd 1 1 zeroMat lowerOne halfMat lowerOne 0 0 ∧
      mnrnd 1 1 zeroMat lowerOne halfMat lowerOne 0 0 < 1 :=
  mnrnd_rand_draw_bounded lowerOne lowerOne halfMat
    ⟨fun i j h => by simp [lowerOne, h],
     fun i _ => by simp [lowerOne],
     fun i j hi hj => by
      interval_cases i
      interval_cases j
      simp [matMulN, matTrans, lowerOne, oneMat]⟩
    ⟨fun i j h => by simp [lowerOne, h],
     fun i _ => by simp [lowerOne],
     fun i j hi hj => by
      interval_cases i
      interval_cases j
      simp [matMulN, matTrans, lowerOne, oneMat]⟩
    (fun i j => by constructor <;> norm_num [halfMat])

/-- C5 counterexample: the matrix the loading sampler hands to inv is not the
symmetrized matrix — with rank 2, one time step, zero factors and an
asymmetric precision draw, entry (0,1) passed to inv is 1 while its
symmetrization is 1/2.  No (M + Mᵀ)/2 step exists in the code. -/
theorem loadingInvArg_not_symmetrized :
    loadingInvArg 1 2 1 zeroMat zeroMat asymLam 0 0 1 ≠
      symPart (loadingInvArg 1 2 1 zeroMat zeroMat asymLam 0) 0 1 := by
  norm_num [loadingInvArg, symPart, reshape3C, matMulN, kr_prod, reshapeC,
    krEinsum, matTrans, zeroMat, asymLam]

/-- C5 amended: the code applies no symmetrization, but the matrix passed to
inv is symmetric whenever the sampled hyperparameter precision Λ is symmetric,
because the data term tau * Σ_t X[t,i]·X[t,j]·binary[l,t] is symmetric in
(i, j) in exact arithmetic. -/
theorem loadingInvArg_symm_of_symm (dim2 rank : ℕ) (tau : ℚ)
    (X binary Lam : Mat) (l i j : ℕ) (hi : i < rank) (hj : j < rank)
    (hLam : ∀ a b, Lam a b = Lam b a) :
    loadingInvArg dim2 rank tau X binary Lam l i j =
      loadingInvArg dim2 rank tau X binary Lam l j i := by
  have hrank : 0 < rank := by omega
  unfold loadingInvArg reshape3C kr_prod reshapeC krEinsum matMulN matTrans
  simp only
  rw [hLam i j]
  have hdiv : ∀ a b : ℕ, a < rank → b < rank → (a * rank + b) / rank = a := by
    intro a b ha hb
    rw [Nat.mul_comm a rank, Nat.mul_add_div hrank, Nat.div_eq_of_lt hb, Nat.add_zero]
  have hmod : ∀ a b : ℕ, b < rank → (a * rank + b) % rank = b := by
    intro a b hb
    rw [Nat.mul_comm a rank, Nat.mul_add_mod, Nat.mod_eq_of_lt hb]
  congr 1
  congr 1
  refine Finset.sum_congr rfl (fun t _ => ?_)
  rw [hdiv i j hi hj, hmod i j hj, hdiv j i hj hi, hmod j i hi]
  ring

/-! ### Regrouping a flat product-range sum into a double sum -/

lemma sum_range_mul (n m : ℕ) (f : ℕ → ℚ) :
    ∑ s ∈ Finset.range (n * m), f s =
      ∑ k ∈ Finset.range m, ∑ j ∈ Finset.range n, f (n * k + j) := by
  induction m with
  | zero => simp
  | succ m ih =>
    have hsplit : ∑ s ∈ Finset.range (n * m + n), f s =
        (∑ s ∈ Finset.range (n * m), f s) + ∑ j ∈ Finset.range n, f (n * m + j) := by
      rw [Finset.range_eq_Ico,
        ← Finset.sum_Ico_consecutive f (Nat.zero_le (n * m)) (Nat.le_add_right (n * m) n),
        ← Finset.range_eq_Ico, Finset.sum_Ico_eq_sum_range]
      have h2 : n * m + n - n * m = n := by omega
      rw [h2]
    rw [Nat.mul_succ, hsplit, ih, Finset.sum_range_succ]

/-- Row r of the mode-0 unfolding of a (rank, rank, d) tensor dotted with a
flat vector equals the double sum over lag index and column. -/
lemma unfold0_dot (rank d : ℕ) (A : Ten) (v : ℕ → ℚ) (r : ℕ) (hr : r < rank) :
    ∑ s ∈ Finset.range (rank * d), ten2mat rank rank d A 0 r s * v s =
      ∑ k ∈ Finset.range d, ∑ j ∈ Finset.range rank, A r j k * v (rank * k + j) := by
  rw [sum_range_mul]
  refine Finset.sum_congr rfl (fun k _ => Finset.sum_congr rfl (fun j hj => ?_))
  have hj' : j < rank := Finset.mem_range.mp hj
  have hrank : 0 < rank := by omega
  congr 1
  unfold ten2mat shapeTo0 moveaxisTo0 flattenF
  simp only
  rw [add_mul_mod_lt _ hr, add_mul_div_lt _ hr, Nat.mul_add_mod,
    Nat.mod_eq_of_lt hj', ← Nat.div_div_eq_div_mul, add_mul_div_lt _ hr,
    Nat.mul_add_div hrank, Nat.div_eq_of_lt hj', Nat.add_zero]

/-- C6: for t < max(lags) the backward contribution Qt is zero and the matrix
inverted is var3 + Mt - Lambda_x + I, i.e. the data term plus Mt plus the
identity (the windowed Sigma-inverse contribution cancels and is replaced by
an identity-scaled regularizer); for t ≥ max(lags) the matrix inverted is
var3 + Mt = data term + Sigma-inverse + Mt, with the full backward term
Qt = Lambda_x · A_unfold · X[t - lags] present in the mean. -/
theorem btmf_temporal_edge_policy (dim1 d dim2 rank : ℕ) (lags : ℕ → ℕ)
    (tau : ℚ) (W binary Lx : Mat) (A : Ten) (X : Mat) (t : ℕ) :
    (t < npMax d lags →
      (∀ i, QtOf d dim2 rank lags Lx A X t i = 0) ∧
      (∀ i j, temporalInvArg dim1 d dim2 rank lags tau W binary Lx A t i j =
        temporalDataTerm dim1 rank tau W binary t i j
          + MtOf d dim2 rank lags Lx A t i j + eyeQ i j))
    ∧ (npMax d lags ≤ t →
      (∀ i j, temporalInvArg dim1 d dim2 rank lags tau W binary Lx A t i j =
        temporalDataTerm dim1 rank tau W binary t i j + Lx i j
          + MtOf d dim2 rank lags Lx A t i j) ∧
      (∀ i, QtOf d dim2 rank lags Lx A X t i =
        ∑ j ∈ Finset.range rank, Lx i j *
          ∑ k ∈ Finset.range d, ∑ j2 ∈ Finset.range rank,
            A j j2 k * X (t - lags k) j2)) := by
  constructor
  · intro ht
    refine ⟨fun i => by simp [QtOf, ht], fun i j => ?_⟩
    simp only [temporalInvArg, if_pos ht, temporalVar3]
    ring
  · intro ht
    have hnot : ¬ t < npMax d lags := not_lt.mpr ht
    refine ⟨fun i j => ?_, fun i => ?_⟩
    · simp only [temporalInvArg, if_neg hnot, temporalVar3]
    · simp only [QtOf, if_neg hnot]
      refine Finset.sum_congr rfl (fun j hj => ?_)
      have hjr : j < rank := Finset.mem_range.mp hj
      congr 1
      rw [unfold0_dot rank d A _ j hjr]
      refine Finset.sum_congr rfl
        (fun k _ => Finset.sum_congr rfl (fun j2 hj2 => ?_))
      have hj2r : j2 < rank := Finset.mem_range.mp hj2
      have hrank : 0 < rank := by omega
      have hdiv : (rank * k + j2) / rank = k := by
        rw [Nat.mul_add_div hrank, Nat.div_eq_of_lt hj2r]
        omega
      have hmod : (rank * k + j2) % rank = j2 := by
        rw [Nat.mul_add_mod, Nat.mod_eq_of_lt hj2r]
      simp [lagVec, hdiv, hmod]

/-- Witness for C6: at a single lag of 1, time 0 is in the regularized branch
and time 1 in the full branch. -/
theorem btmf_temporal_edge_policy_witness :
    QtOf 1 2 1 lagsOne oneMat tenEx zeroMat 0 0 = 0 ∧
      temporalInvArg 1 1 2 1 lagsOne 1 zeroMat zeroMat oneMat tenEx 1 0 0 =
        temporalDataTerm 1 1 1 zeroMat zeroMat 1 0 0 + oneMat 0 0
          + MtOf 1 2 1 lagsOne oneMat tenEx 1 0 0 := by
  have h0 := btmf_temporal_edge_policy 1 1 2 1 lagsOne 1 zeroMat zeroMat oneMat tenEx zeroMat 0
  have h1 := btmf_temporal_edge_policy 1 1 2 1 lagsOne 1 zeroMat zeroMat oneMat tenEx zeroMat 1
  refine ⟨(h0.1 ?_).1 0, (h1.2 ?_).1 0 0⟩
  · show 0 < npMax 1 lagsOne
    decide
  · show npMax 1 lagsOne ≤ 1
    decide

/-- C8: X_new keeps the dim2 sampled rows of X unchanged, its synthetic row at
index dim2 equals the VAR coefficients applied to the lag-selected rows of X,
and column dim2 of the extended reconstruction W·X_newᵀ is W applied to that
forecast row (so the reconstruction gains exactly one forecast column). -/
theorem btmf_extended_outputs (dim2 rank d : ℕ) (lags : ℕ → ℕ) (A : Ten)
    (W X : Mat) (hlag : ∀ k, k < d → 1 ≤ lags k ∧ lags k ≤ dim2) :
    (∀ t r, t < dim2 → xNewOf dim2 rank d lags A X t r = X t r) ∧
    (∀ r, r < rank → xNewOf dim2 rank d lags A X dim2 r =
      ∑ k ∈ Finset.range d, ∑ j ∈ Finset.range rank, A r j k * X (dim2 - lags k) j) ∧
    (∀ i, matMulN rank W (matTrans (xNewOf dim2 rank d lags A X)) i dim2 =
      ∑ j ∈ Finset.range rank, W i j * xNewForecast dim2 rank d lags A X j) := by
  have hrow : ∀ r, xNewOf dim2 rank d lags A X dim2 r =
      xNewForecast dim2 rank d lags A X r := by
    intro r
    simp [xNewOf]
  refine ⟨fun t r ht => by simp [xNewOf, ht], fun r hr => ?_, fun i => ?_⟩
  · rw [hrow r]
    unfold xNewForecast
    rw [unfold0_dot rank d A _ r hr]
    refine Finset.sum_congr rfl
      (fun k hk => Finset.sum_congr rfl (fun j hj => ?_))
    have hjr : j < rank := Finset.mem_range.mp hj
    have hkd : k < d := Finset.mem_range.mp hk
    have hrank : 0 < rank := by omega
    have hdiv : (rank * k + j) / rank = k := by
      rw [Nat.mul_add_div hrank, Nat.div_eq_of_lt hjr]
      omega
    have hmod : (rank * k + j) % rank = j := by
      rw [Nat.mul_add_mod, Nat.mod_eq_of_lt hjr]
    have hlt : dim2 - lags k < dim2 := by
      have := hlag k hkd
      omega
    simp [xNewBase, hdiv, hmod, hlt]
  · unfold matMulN matTrans
    exact Finset.sum_congr rfl (fun j _ => by rw [hrow j])

/-- Witness for C8 at dim2 = 2, rank = 1, d = 1, a single lag of 1. -/
theorem btmf_extended_outputs_witness :
    xNewOf 2 1 1 lagsOne tenEx oneMat 2 0 =
      ∑ k ∈ Finset.range 1, ∑ j ∈ Finset.range 1,
        tenEx 0 j k * oneMat (2 - lagsOne k) j :=
  (btmf_extended_outputs 2 1 1 lagsOne tenEx oneMat oneMat
    (fun k _ => by constructor <;> simp [lagsOne])).2.1 0 (by decide)

/-- C7: the Gamma posterior tau is drawn from has shape
1e-6 + (number of observed entries)/2 and rate 1e-6 + (sum of squared
residuals over observed entries)/2: the rate is strictly positive and the
scale the source passes to the sampler is exactly its reciprocal. -/
theorem btmf_tau_posterior (dim1 dim2 rank : ℕ) (sparse W X : Mat) :
    tauShapeArg dim1 dim2 sparse =
      1 / 1000000 + ((obsPositions dim1 dim2 sparse).card : ℚ) / 2
    ∧ 0 < tauRate dim1 dim2 rank sparse W X
    ∧ tauScaleArg dim1 dim2 rank sparse W X * tauRate dim1 dim2 rank sparse W X = 1 := by
  have hsq : (0 : ℚ) ≤
      ∑ p ∈ obsPositions dim1 dim2 sparse,
        (sparse p.1 p.2 - matMulN rank W (matTrans X) p.1 p.2) ^ 2 :=
    Finset.sum_nonneg (fun p _ => sq_nonneg _)
  have hpos : 0 < tauRate dim1 dim2 rank sparse W X := by
    unfold tauRate betaBTMF
    nlinarith
  refine ⟨by unfold tauShapeArg alphaBTMF; ring, hpos, ?_⟩
  have hne : tauRate dim1 dim2 rank sparse W X ≠ 0 := ne_of_gt hpos
  unfold tauScaleArg
  unfold tauRate at hne ⊢
  exact one_div_mul_cancel hne

lemma foldl_proj (step : BTMFSums → ℕ → BTMFSums) (f : BTMFSums → ℚ)
    (g : ℕ → ℚ) (p : ℕ → Bool)
    (hstep : ∀ s it, f (step s it) = if p it then f s + g it else f s) :
    ∀ (l : List ℕ) (s0 : BTMFSums),
      f (l.foldl step s0) =
        l.foldl (fun acc it => if p it then acc + g it else acc) (f s0) := by
  intro l
  induction l with
  | nil => intro s0; rfl
  | cons x xs ih =>
    intro s0
    rw [List.foldl_cons, List.foldl_cons, ih, hstep]

lemma foldl_ite_add (p : ℕ → Bool) (g : ℕ → ℚ) (n : ℕ) (a : ℚ) :
    (List.range n).foldl (fun acc it => if p it then acc + g it else acc) a =
      a + ∑ it ∈ (Finset.range n).filter (fun it => p it = true), g it := by
  induction n with
  | zero => simp
  | succ n ih =>
    rw [List.range_succ, List.foldl_append, List.foldl_cons, List.foldl_nil, ih,
      Finset.range_succ, Finset.filter_insert]
    by_cases h : p n = true
    · rw [if_pos h, if_pos h,
        Finset.sum_insert (by simp [Finset.mem_filter, Finset.mem_range])]
      ring
    · rw [if_neg h, if_neg h]

lemma collectGate_filter (m1 m2 : ℕ) (h : m2 ≤ m1) :
    (Finset.range m1).filter (fun it => collectGate m1 m2 it = true) =
      Finset.Ico (m1 - m2) m1 := by
  ext it
  simp only [collectGate, Finset.mem_filter, Finset.mem_range, Finset.mem_Ico,
    decide_eq_true_eq]
  omega

/-- C3: the accumulators start at zero and, for maxiter2 ≤ maxiter1, the gate
is off during the first maxiter1 - maxiter2 iterations and on during the last
maxiter2 of them, so each accumulator collects exactly one addend per
collection iteration; each of the four outputs is the resulting sum divided by
maxiter2. -/
theorem btmf_burnin_collection (m1 m2 dim2 rank d : ℕ) (lags : ℕ → ℕ)
    (Wd : ℕ → Mat) (Ad : ℕ → Ten) (Xd : ℕ → Mat) (h : m2 ≤ m1) :
    (∀ it, it < m1 - m2 → collectGate m1 m2 it = false) ∧
    (∀ it, m1 - m2 ≤ it → collectGate m1 m2 it = true) ∧
    (∀ i j, (btmfOut m1 m2 dim2 rank d lags Wd Ad Xd).wPlus i j =
      (∑ it ∈ Finset.Ico (m1 - m2) m1, Wd it i j) / m2) ∧
    (∀ i j k, (btmfOut m1 m2 dim2 rank d lags Wd Ad Xd).aPlus i j k =
      (∑ it ∈ Finset.Ico (m1 - m2) m1, Ad it i j k) / m2) ∧
    (∀ t r, (btmfOut m1 m2 dim2 rank d lags Wd Ad Xd).xNewPlus t r =
      (∑ it ∈ Finset.Ico (m1 - m2) m1,
        xNewOf dim2 rank d lags (Ad it) (Xd it) t r) / m2) ∧
    (∀ i t, (btmfOut m1 m2 dim2 rank d lags Wd Ad Xd).matHatPlus i t =
      (∑ it ∈ Finset.Ico (m1 - m2) m1,
        matMulN rank (Wd it)
          (matTrans (xNewOf dim2 rank d lags (Ad it) (Xd it))) i t) / m2) := by
  have hsum : ∀ (f : BTMFSums → ℚ) (g : ℕ → ℚ),
      (∀ s it, f (btmfAccStep m1 m2 dim2 rank d lags Wd Ad Xd s it) =
        if collectGate m1 m2 it then f s + g it else f s) →
      f btmfSumsInit = 0 →
      f (btmfSums m1 m2 dim2 rank d lags Wd Ad Xd) =
        ∑ it ∈ Finset.Ico (m1 - m2) m1, g it := by
    intro f g hstep h0
    unfold btmfSums
    rw [foldl_proj _ f g (collectGate m1 m2) hstep, foldl_ite_add, h0,
      collectGate_filter m1 m2 h, zero_add]
  refine ⟨fun it hit => ?_, fun it hit => ?_, fun i j => ?_, fun i j k => ?_,
    fun t r => ?_, fun i t => ?_⟩
  · simp only [collectGate, decide_eq_false_iff_not]
    omega
  · simp only [collectGate, decide_eq_true_eq]
    omega
  · show (btmfSums m1 m2 dim2 rank d lags Wd Ad Xd).wPlus i j / m2 = _
    rw [hsum (fun s => s.wPlus i j) (fun it => Wd it i j)
      (fun s it => by
        unfold btmfAccStep
        by_cases hg : collectGate m1 m2 it <;> simp [hg, matAdd]) rfl]
  · show (btmfSums m1 m2 dim2 rank d lags Wd Ad Xd).aPlus i j k / m2 = _
    rw [hsum (fun s => s.aPlus i j k) (fun it => Ad it i j k)
      (fun s it => by
        unfold btmfAccStep
        by_cases hg : collectGate m1 m2 it <;> simp [hg, tenAdd]) rfl]
  · show (btmfSums m1 m2 dim2 rank d lags Wd Ad Xd).xNewPlus t r / m2 = _
    rw [hsum (fun s => s.xNewPlus t r)
      (fun it => xNewOf dim2 rank d lags (Ad it) (Xd it) t r)
      (fun s it => by
        unfold btmfAccStep
        by_cases hg : collectGate m1 m2 it <;> simp [hg, matAdd]) rfl]
  · show (btmfSums m1 m2 dim2 rank d lags Wd Ad Xd).matHatPlus i t / m2 = _
    rw [hsum (fun s => s.matHatPlus i t)
      (fun it => matMulN rank (Wd it)
        (matTrans (xNewOf dim2 rank d lags (Ad it) (Xd it))) i t)
      (fun s it => by
        unfold btmfAccStep
        by_cases hg : collectGate m1 m2 it <;> simp [hg, matAdd]) rfl]

/-- Witness for C3 at maxiter1 = 2, maxiter2 = 1: the gate is off at
iteration 0, on at iteration 1, and the W output averages the single
collected draw. -/
theorem btmf_burnin_collection_witness :
    collectGate 2 1 0 = false ∧ collectGate 2 1 1 = true ∧
      (btmfOut 2 1 2 1 1 lagsOne (fun _ => oneMat) (fun _ => tenEx)
        (fun _ => oneMat)).wPlus 0 0 =
        (∑ it ∈ Finset.Ico (2 - 1) 2, oneMat 0 0) / 1 := by
  have h := btmf_burnin_collection 2 1 2 1 1 lagsOne (fun _ => oneMat)
    (fun _ => tenEx) (fun _ => oneMat) (by omega)
  exact ⟨h.1 0 (by omega), h.2.1 1 (by omega), h.2.2.1 0 0⟩

/-- C9 counterexample: with dim1 = 1, dim2 = 2, rank = 1 and an init X of
3 rows (shape mismatch), the entry section completes without any error and
the failure only surfaces at the loading-sampler matmul inside the first
sweep — there is no validation at entry. -/
theorem btmf_no_entry_validation :
    exceptOk (btmfPrelude 1 2 1 2 oneMat) = true ∧
      exceptOk (loadingStepShapes 1 2 1 3 1) = false := by
  constructor <;> rfl

/-- C9 amended: for any input whose dense matrix matches the sparse shape but
whose init X has a row count different from dim2, the entry section succeeds
and the error is raised by the loading-sampler matmul during the first
sampling sweep. -/
theorem btmf_shape_error_first_sweep (denseR denseC dim1 dim2 rank xRows xCols : ℕ)
    (sparse : Mat) (hdr : denseR = dim1) (hdc : denseC = dim2) (hx : xRows ≠ dim2) :
    exceptOk (btmfPrelude denseR denseC dim1 dim2 sparse) = true ∧
      loadingStepShapes dim1 dim2 rank xRows xCols =
        Except.error "matmul mismatch in core dimension" := by
  constructor
  · simp [btmfPrelude, exceptOk, hdr, hdc]
  · simp [loadingStepShapes, hx]

/-- Witness for the amended C9 at dim2 = 2, X with 3 rows. -/
theorem btmf_shape_error_first_sweep_witness :
    exceptOk (btmfPrelude 1 2 1 2 oneMat) = true ∧
      loadingStepShapes 1 2 1 3 1 =
        Except.error "matmul mismatch in core dimension" :=
  btmf_shape_error_first_sweep 1 2 1 2 1 3 1 oneMat rfl rfl (by omega)

lemma gibbsRows_entry (n : ℕ) (draw : ℕ → ℕ → ℚ) (M : Mat) (r c : ℕ)
    (hr : r < n) : gibbsRows n draw M r c = draw r c := by
  induction n generalizing M with
  | zero => omega
  | succ n ih =>
    unfold gibbsRows
    rw [List.range_succ, List.foldl_append, List.foldl_cons, List.foldl_nil]
    by_cases h : r = n
    · subst h
      simp [writeRow]
    · have hr' : r < n := by omega
      simp only [writeRow, if_neg h]
      exact ih M hr'

lemma btmfHeapIter_next (dim1 dim2 : ℕ) (Wdraw Xdraw : ℕ → ℕ → ℕ → ℚ)
    (wRef xRef : ℕ) (h : PyHeap) (it : ℕ) :
    (btmfHeapIter dim1 dim2 Wdraw Xdraw wRef xRef h it).next = h.next := rfl

lemma btmfHeapFold_next (dim1 dim2 : ℕ) (Wdraw Xdraw : ℕ → ℕ → ℕ → ℚ)
    (wRef xRef : ℕ) (l : List ℕ) (h : PyHeap) :
    ((l.foldl (btmfHeapIter dim1 dim2 Wdraw Xdraw wRef xRef) h)).next = h.next := by
  induction l generalizing h with
  | nil => rfl
  | cons x xs ih => rw [List.foldl_cons, ih, btmfHeapIter_next]

lemma btmfHeapIter_val_w (dim1 dim2 : ℕ) (Wdraw Xdraw : ℕ → ℕ → ℕ → ℚ)
    (wRef xRef : ℕ) (hne : wRef ≠ xRef) (h : PyHeap) (it : ℕ) :
    (btmfHeapIter dim1 dim2 Wdraw Xdraw wRef xRef h it).val wRef =
      gibbsRows dim1 (Wdraw it) (h.val wRef) := by
  unfold btmfHeapIter heapWrite
  simp [hne]

lemma btmfHeapIter_val_x (dim1 dim2 : ℕ) (Wdraw Xdraw : ℕ → ℕ → ℕ → ℚ)
    (wRef xRef : ℕ) (h : PyHeap) (it : ℕ) :
    (btmfHeapIter dim1 dim2 Wdraw Xdraw wRef xRef h it).val xRef =
      gibbsRows dim2 (Xdraw it)
        ((heapWrite h wRef (gibbsRows dim1 (Wdraw it) (h.val wRef))).val xRef) := by
  unfold btmfHeapIter heapWrite
  simp

/-- C10: after the run, the caller's init W and init X arrays (identifiers
wRef, xRef) hold the final iteration's Gibbs draws — they were mutated in
place, not copied — while the returned outputs live at two identifiers fresh
with respect to the entire input store (in particular distinct from wRef and
xRef and from each other) and hold the averaged values. -/
theorem btmf_inplace_mutation (m1 dim1 dim2 : ℕ) (Wdraw Xdraw : ℕ → ℕ → ℕ → ℚ)
    (avgW avgMatHat : Mat) (wRef xRef : ℕ) (h : PyHeap)
    (hw : wRef < h.next) (hx : xRef < h.next) (hne : wRef ≠ xRef)
    (hm : 0 < m1) :
    (∀ r c, r < dim1 →
      (btmfHeapRun m1 dim1 dim2 Wdraw Xdraw avgW avgMatHat wRef xRef h).1.val
        wRef r c = Wdraw (m1 - 1) r c) ∧
    (∀ r c, r < dim2 →
      (btmfHeapRun m1 dim1 dim2 Wdraw Xdraw avgW avgMatHat wRef xRef h).1.val
        xRef r c = Xdraw (m1 - 1) r c) ∧
    (btmfHeapRun m1 dim1 dim2 Wdraw Xdraw avgW avgMatHat wRef xRef h).2.1 ≠ wRef ∧
    (btmfHeapRun m1 dim1 dim2 Wdraw Xdraw avgW avgMatHat wRef xRef h).2.1 ≠ xRef ∧
    (btmfHeapRun m1 dim1 dim2 Wdraw Xdraw avgW avgMatHat wRef xRef h).2.2 ≠ wRef ∧
    (btmfHeapRun m1 dim1 dim2 Wdraw Xdraw avgW avgMatHat wRef xRef h).2.2 ≠ xRef ∧
    (btmfHeapRun m1 dim1 dim2 Wdraw Xdraw avgW avgMatHat wRef xRef h).2.1 ≠
      (btmfHeapRun m1 dim1 dim2 Wdraw Xdraw avgW avgMatHat wRef xRef h).2.2 ∧
    (btmfHeapRun m1 dim1 dim2 Wdraw Xdraw avgW avgMatHat wRef xRef h).1.val
      (btmfHeapRun m1 dim1 dim2 Wdraw Xdraw avgW avgMatHat wRef xRef h).2.1 = avgW ∧
    (btmfHeapRun m1 dim1 dim2 Wdraw Xdraw avgW avgMatHat wRef xRef h).1.val
      (btmfHeapRun m1 dim1 dim2 Wdraw Xdraw avgW avgMatHat wRef xRef h).2.2 =
      avgMatHat := by
  obtain ⟨n, rfl⟩ : ∃ n, m1 = n + 1 := ⟨m1 - 1, by omega⟩
  set hEnd := (List.range (n + 1)).foldl
    (btmfHeapIter dim1 dim2 Wdraw Xdraw wRef xRef) h with hEndDef
  have hnext : hEnd.next = h.next := btmfHeapFold_next _ _ _ _ _ _ _ _
  have hrun : btmfHeapRun (n + 1) dim1 dim2 Wdraw Xdraw avgW avgMatHat wRef xRef h =
      (⟨hEnd.next + 1 + 1,
        fun a => if a = hEnd.next + 1 then avgMatHat
          else if a = hEnd.next then avgW else hEnd.val a⟩,
        hEnd.next, hEnd.next + 1) := by
    unfold btmfHeapRun heapAlloc
    rfl
  have hlast : hEnd = btmfHeapIter dim1 dim2 Wdraw Xdraw wRef xRef
      ((List.range n).foldl (btmfHeapIter dim1 dim2 Wdraw Xdraw wRef xRef) h) n := by
    rw [hEndDef, List.range_succ, List.foldl_append, List.foldl_cons, List.foldl_nil]
  constructor
  · intro r c hr
    rw [hrun]
    simp only
    rw [if_neg (by omega), if_neg (by omega), hlast,
      btmfHeapIter_val_w _ _ _ _ _ _ hne, gibbsRows_entry _ _ _ _ _ hr]
    simp
  constructor
  · intro r c hr
    rw [hrun]
    simp only
    rw [if_neg (by omega), if_neg (by omega), hlast, btmfHeapIter_val_x,
      gibbsRows_entry _ _ _ _ _ hr]
    simp
  refine ⟨?_, ?_, ?_, ?_, ?_, ?_, ?_⟩ <;> rw [hrun]
  · simp only
    omega
  · simp only
    omega
  · simp only
    omega
  · simp only
    omega
  · simp only
    omega
  · simp
  · simp

/-- Witness for C10: one iteration on a two-array store with constant draws. -/
theorem btmf_inplace_mutation_witness :
    (btmfHeapRun 1 1 1 (fun _ _ _ => 7) (fun _ _ _ => 8) oneMat halfMat 0 1
      (PyHeap.mk 2 (fun _ => zeroMat))).1.val 0 0 0 = 7 ∧
    (btmfHeapRun 1 1 1 (fun _ _ _ => 7) (fun _ _ _ => 8) oneMat halfMat 0 1
      (PyHeap.mk 2 (fun _ => zeroMat))).2.1 ≠ 0 ∧
    (btmfHeapRun 1 1 1 (fun _ _ _ => 7) (fun _ _ _ => 8) oneMat halfMat 0 1
      (PyHeap.mk 2 (fun _ => zeroMat))).1.val
      (btmfHeapRun 1 1 1 (fun _ _ _ => 7) (fun _ _ _ => 8) oneMat halfMat 0 1
        (PyHeap.mk 2 (fun _ => zeroMat))).2.1 = oneMat := by
  have h := btmf_inplace_mutation 1 1 1 (fun _ _ _ => 7) (fun _ _ _ => 8)
    oneMat halfMat 0 1 (PyHeap.mk 2 (fun _ => zeroMat))
    (by decide) (by decide) (by decide) (by decide)
  exact ⟨h.1 0 0 (by omega), h.2.2.1, h.2.2.2.2.2.2.2.1⟩

/-- Witness for the amended C5 at rank 2, entry (0, 1) versus (1, 0). -/
theorem loadingInvArg_symm_of_symm_witness :
    (0 : ℕ) < 2 ∧ (1 : ℕ) < 2 ∧
      loadingInvArg 1 2 1 zeroMat zeroMat symLam 0 0 1 =
        loadingInvArg 1 2 1 zeroMat zeroMat symLam 0 1 0 :=
  ⟨by decide, by decide,
    loadingInvArg_symm_of_symm 1 2 1 zeroMat zeroMat symLam 0 0 1
      (by decide) (by decide)
      (fun a b => by
        by_cases ha0 : a = 0 <;> by_cases hb0 : b = 0 <;>
          by_cases ha1 : a = 1 <;> by_cases hb1 : b = 1 <;>
          simp_all [symLam])⟩

